import Mathlib

/-!
Verification of the context-assembly tool (trv/context.py).

The Python source is shallowly embedded below.  Python strings are mostly
modelled as Lean String values; wherever a computation needs to walk the
characters (glob matching, sorting, suffix tests, upper-casing), we work on
List Char obtained through String.toList, because those list operations
reduce inside the Lean kernel.  Python exceptions are modelled with
Option/Except.  Functions whose Python termination argument is not
structural are given an explicit fuel argument that is always initialised
large enough (the fuel branch is unreachable on the inputs the source can
produce); this keeps every definition computable by kernel reduction.
-/

/-! ## Small string helpers shared by the embedding -/

/-- Model of the Python expression sep.join(parts): concatenates the parts
with the separator between consecutive elements. -/
def joinWith (sep : String) : List String → String
  | [] => ""
  | [s] => s
  | s :: rest => s ++ sep ++ joinWith sep rest

/-- Lexicographic comparison of two character lists by code point, the order
Python uses to compare strings.  (Lean's builtin String order does not
reduce in the kernel, so we compare the underlying characters directly.) -/
def charListLe : List Char → List Char → Bool
  | [], _ => true
  | _ :: _, [] => false
  | a :: as, b :: bs => if a = b then charListLe as bs else decide (a < b)

/-- String comparison used to model Python sorted(...) on file names. -/
def strLe (a b : String) : Bool :=
  charListLe a.toList b.toList

/-- Stable insertion of a string into an already sorted list (helper for
the model of Python sorted). -/
def insertSorted (x : String) : List String → List String
  | [] => [x]
  | y :: rest => if strLe x y then x :: y :: rest else y :: insertSorted x rest

/-- Model of Python sorted(...) on a list of strings: a stable sort by
code-point order. -/
def pySorted : List String → List String
  | [] => []
  | x :: rest => insertSorted x (pySorted rest)

/-- Model of Python str.upper restricted to ASCII letters (the source only
ever upper-cases database column names). -/
def strUpper (s : String) : String :=
  String.mk (s.toList.map Char.toUpper)

/-- Model of Python str.lower restricted to ASCII letters. -/
def strLower (s : String) : String :=
  String.mk (s.toList.map Char.toLower)

/-- Model of Python str.endswith for a single suffix, computed on the
underlying characters. -/
def strEndsWith (s suffix : String) : Bool :=
  let cs := s.toList
  let sf := suffix.toList
  decide (sf.length ≤ cs.length) && decide (cs.drop (cs.length - sf.length) = sf)

/-- Model of os.path.basename: the part of the path after the last slash. -/
def basename (p : String) : String :=
  String.mk (p.toList.foldl (fun acc c => if c = '/' then [] else acc ++ [c]) [])

/-- Model of os.path.join(root, name) for the shapes the walk produces: the
root is nonempty and has no trailing slash, the name is relative. -/
def pathJoin (a b : String) : String :=
  a ++ "/" ++ b

/-- Model of os.path.relpath(join(dir, name), start) as used by the walk:
extends the relative directory with one more component. -/
def joinRel (d n : String) : String :=
  if d = "" then n else d ++ "/" ++ n

/-! ## ExclusionMatcher: fnmatch-based glob matching (context.py lines 51-59)

Python fnmatch.fnmatch first applies os.path.normcase, which is the
identity on POSIX, and then matches the translated pattern against the
whole string.  The matcher below follows fnmatch.translate semantics:
a star matches any (possibly empty) run of characters, a question mark
matches exactly one character, and a bracketed class matches one character
against literal entries and a-b ranges, with a leading bang negating the
class; the closing bracket is scanned past a leading bang and a leading
literal bracket, and an unterminated class makes the opening bracket a
literal character. -/

/-- Split a character list at the first closing bracket; none when the
class is unterminated. -/
def findRBrack : List Char → Option (List Char × List Char)
  | [] => none
  | c :: r =>
    if c = ']' then some ([], r)
    else match findRBrack r with
      | none => none
      | some (b, a) => some (c :: b, a)

/-- Scan the body of a glob character class, mirroring the index scan in
fnmatch.translate: a bang and then a closing bracket in the leading
positions are part of the class body. -/
def scanClass (cs : List Char) : Option (List Char × List Char) :=
  match cs with
  | '!' :: ']' :: rest =>
    (findRBrack rest).map (fun p => ('!' :: ']' :: p.1, p.2))
  | '!' :: rest =>
    (findRBrack rest).map (fun p => ('!' :: p.1, p.2))
  | ']' :: rest =>
    (findRBrack rest).map (fun p => (']' :: p.1, p.2))
  | rest => findRBrack rest

/-- Membership of a character in a class body, with a-b ranges; an item
pair whose bounds are reversed matches nothing, as in fnmatch.translate
after it deletes empty ranges. -/
def inClass : List Char → Char → Bool
  | a :: '-' :: b :: rest, c =>
    (decide (a ≤ c) && decide (c ≤ b)) || inClass rest c
  | a :: rest, c => (a = c) || inClass rest c
  | [], _ => false

/-- Match one character against a scanned class body, honouring a leading
bang as negation. -/
def classMatch (body : List Char) (c : Char) : Bool :=
  match body with
  | '!' :: tail => !(inClass tail c)
  | _ => inClass body c

/-- Fueled glob matcher (pattern characters, then subject characters).
Every recursive call strictly decreases the combined length of pattern and
subject, so fuel equal to that combined length plus one never runs out;
the fuel only makes the definition structural so it reduces in the
kernel. -/
def globMatchF : Nat → List Char → List Char → Bool
  | 0, _, _ => false
  | fuel + 1, p, s =>
    match p, s with
    | [], rest => decide (rest = [])
    | '*' :: p2, rest =>
      globMatchF fuel p2 rest ||
        (match rest with
         | [] => false
         | _ :: s2 => globMatchF fuel ('*' :: p2) s2)
    | '?' :: p2, rest =>
      (match rest with
       | [] => false
       | _ :: s2 => globMatchF fuel p2 s2)
    | '[' :: p2, rest =>
      (match scanClass p2 with
       | none =>
         -- unterminated class: the opening bracket is a literal character
         (match rest with
          | c :: s2 => (c = '[') && globMatchF fuel p2 s2
          | [] => false)
       | some (body, p3) =>
         (match rest with
          | c :: s2 => classMatch body c && globMatchF fuel p3 s2
          | [] => false))
    | a :: p2, rest =>
      (match rest with
       | c :: s2 => (a = c) && globMatchF fuel p2 s2
       | [] => false)

/-- Model of fnmatch.fnmatch(name, pattern) on POSIX. -/
def fnmatch (name pat : String) : Bool :=
  globMatchF (pat.toList.length + name.toList.length + 1) pat.toList name.toList

/-- Loop body of is_excluded (context.py lines 56-58): the first matching
pattern returns true. -/
def isExcludedAux (path path_basename : String) : List String → Bool
  | [] => false
  | pat :: rest =>
    if fnmatch path pat || fnmatch path_basename pat then true
    else isExcludedAux path path_basename rest

/-- Embedding of is_excluded (context.py lines 51-59): a path is excluded
when some pattern matches the full path string or its basename. -/
def is_excluded (path : String) (exclude_patterns : List String) : Bool :=
  isExcludedAux path (basename path) exclude_patterns

/-! ## Extension bucketing (context.py lines 218-220)

The source computes the bucket with os.path.splitext on the bare filename
(which never contains a separator, since it comes from the files list of
os.walk) and strips the leading dot; a filename without an extension goes
to the sentinel bucket. -/

/-- Index of the last dot in a character list, if any (model of
str.rfind inside posixpath.splitext). -/
def rfindDot : List Char → Option Nat
  | [] => none
  | c :: rest =>
    match rfindDot rest with
    | some i => some (i + 1)
    | none => if c = '.' then some 0 else none

/-- Embedding of os.path.splitext restricted to basenames: the extension
starts at the last dot, provided some earlier character of the name is not
a dot (posixpath.splitext skips the leading dots of a hidden file). -/
def splitext (p : List Char) : List Char × List Char :=
  match rfindDot p with
  | none => (p, [])
  | some d =>
    if (p.take d).any (fun c => c ≠ '.') then (p.take d, p.drop d) else (p, [])

/-- Embedding of the bucket computation in collect_and_separate_contents
(context.py lines 219-220): the extension without its dot, or the sentinel
label when the filename has no extension. -/
def file_type_of (filename : String) : String :=
  let extn := (splitext filename.toList).2
  if extn = [] then "no_extension" else String.mk (extn.drop 1)

/-- Bucket label as the specification describes it: the lower-cased suffix
without the leading separator, or the sentinel label when absent.  This
definition follows the words of the spec, to be compared with the
source-derived file_type_of. -/
def spec_file_type_lower (filename : String) : String :=
  let extn := (splitext filename.toList).2
  if extn = [] then "no_extension" else strLower (String.mk (extn.drop 1))

/-! ## Permissive text decoding (context.py line 224)

The source opens text files with encoding utf-8 and errors=ignore, so the
body is decoded by the CPython UTF-8 codec and every ill-formed byte
sequence is handled by the error handler instead of raising.  The decoder
below models that codec: a maximal valid-prefix of an ill-formed sequence
is consumed as one error (the handler either drops it or emits U+FFFD),
matching the maximal-subpart behaviour of CPython.  The spec claims the
handler replaces; the source uses ignore, so both handlers are modelled
and compared. -/

/-- Error handler selector for the UTF-8 decoder. -/
inductive DecodeErrMode where
  | ignoreBytes
  | replaceBytes
deriving DecidableEq

/-- Output of the error handler for one ill-formed sequence: nothing for
errors=ignore, one U+FFFD for errors=replace. -/
def errOut : DecodeErrMode → List Char
  | .ignoreBytes => []
  | .replaceBytes => [Char.ofNat 0xFFFD]

/-- Continuation-byte test of the UTF-8 decoder. -/
def isCont (b : Nat) : Bool :=
  decide (0x80 ≤ b) && decide (b ≤ 0xBF)

/-- One step of the UTF-8 decoder: given the first byte and the remaining
bytes, produce the decoded output of this step and the bytes that are left.
Ill-formed input consumes its maximal valid prefix and yields the error
handler output.  The second-byte windows of the lead bytes E0, ED, F0 and
F4 exclude overlong encodings, surrogates and values above 0x10FFFF, as in
the CPython codec. -/
def utf8Step (mode : DecodeErrMode) (b : Nat) (rest : List Nat) : List Char × List Nat :=
  if b < 0x80 then ([Char.ofNat b], rest)
  else if b < 0xC2 then (errOut mode, rest)
  else if b < 0xE0 then
    match rest with
    | b2 :: r2 =>
      if isCont b2 then ([Char.ofNat ((b - 0xC0) * 0x40 + (b2 - 0x80))], r2)
      else (errOut mode, rest)
    | [] => (errOut mode, [])
  else if b < 0xF0 then
    let lo2 := if b = 0xE0 then 0xA0 else 0x80
    let hi2 := if b = 0xED then 0x9F else 0xBF
    match rest with
    | b2 :: r2 =>
      if decide (lo2 ≤ b2) && decide (b2 ≤ hi2) then
        match r2 with
        | b3 :: r3 =>
          if isCont b3 then
            ([Char.ofNat ((b - 0xE0) * 0x1000 + (b2 - 0x80) * 0x40 + (b3 - 0x80))], r3)
          else (errOut mode, r2)
        | [] => (errOut mode, [])
      else (errOut mode, rest)
    | [] => (errOut mode, [])
  else if b < 0xF5 then
    let lo2 := if b = 0xF0 then 0x90 else 0x80
    let hi2 := if b = 0xF4 then 0x8F else 0xBF
    match rest with
    | b2 :: r2 =>
      if decide (lo2 ≤ b2) && decide (b2 ≤ hi2) then
        match r2 with
        | b3 :: r3 =>
          if isCont b3 then
            match r3 with
            | b4 :: r4 =>
              if isCont b4 then
                ([Char.ofNat ((b - 0xF0) * 0x40000 + (b2 - 0x80) * 0x1000 +
                    (b3 - 0x80) * 0x40 + (b4 - 0x80))], r4)
              else (errOut mode, r3)
            | [] => (errOut mode, [])
          else (errOut mode, r2)
        | [] => (errOut mode, [])
      else (errOut mode, rest)
    | [] => (errOut mode, [])
  else (errOut mode, rest)

/-- Fueled decoding driver.  Each step consumes at least the first byte,
so fuel equal to the byte count never runs out. -/
def utf8DecodeAux (mode : DecodeErrMode) : Nat → List Nat → List Char
  | _, [] => []
  | 0, _ => []
  | fuel + 1, b :: rest =>
    let step := utf8Step mode b rest
    step.1 ++ utf8DecodeAux mode fuel step.2

/-- Decode a byte list with the CPython UTF-8 codec under the given error
handler. -/
def utf8Decode (mode : DecodeErrMode) (bytes : List Nat) : List Char :=
  utf8DecodeAux mode bytes.length bytes

/-- UTF-8 encoding of one character (the standard layout, as in
String.utf8EncodeChar). -/
def encodeChar (c : Char) : List Nat :=
  let n := c.toNat
  if n < 0x80 then [n]
  else if n < 0x800 then [0xC0 + n / 0x40, 0x80 + n % 0x40]
  else if n < 0x10000 then
    [0xE0 + n / 0x1000, 0x80 + (n / 0x40) % 0x40, 0x80 + n % 0x40]
  else
    [0xF0 + n / 0x40000, 0x80 + (n / 0x1000) % 0x40, 0x80 + (n / 0x40) % 0x40,
      0x80 + n % 0x40]

/-- UTF-8 encoding of a character list. -/
def encodeUtf8 : List Char → List Nat
  | [] => []
  | c :: rest => encodeChar c ++ encodeUtf8 rest

/-- Embedding of the ContentBlock construction in
collect_and_separate_contents (context.py lines 222-230): the opening tag,
the permissively decoded body, and the closing tag with its embedded
newline, joined by newlines. -/
def content_block (relative_path : String) (bytes : List Nat) : String :=
  joinWith "\n"
    ["[" ++ relative_path ++ "]",
      String.mk (utf8Decode .ignoreBytes bytes),
      "[END " ++ relative_path ++ "]\n"]

/-- ContentBlock as the specification describes it: the same tags, but the
body decoded with invalid bytes replaced rather than dropped.  This
definition follows the words of the spec, to be compared with the
source-derived content_block. -/
def spec_content_block_replace (relative_path : String) (bytes : List Nat) : String :=
  joinWith "\n"
    ["[" ++ relative_path ++ "]",
      String.mk (utf8Decode .replaceBytes bytes),
      "[END " ++ relative_path ++ "]\n"]

/-! ## ValueFormatter (context.py lines 105-159)

Database values are modelled by a closed inductive: null, integers,
strings, and the three composite shapes the source dispatches on by class
name (Struct, List, Map).  The nested collections are their own mutual
inductives so that the formatter is mutual structural recursion, which the
kernel can reduce.  The try/except around composite formatting in the
source cannot fire in this pure model; the fallback branch is therefore
not reachable. -/

mutual

/-- Model of the runtime values a DuckDB row can contain. -/
inductive DBValue where
  | null
  | int (n : Int)
  | str (s : String)
  | struct (fields : DBFields)
  | list (elems : DBValues)
  | map (pairs : DBFields)

/-- A list of nested values (elements of a DuckDB LIST value). -/
inductive DBValues where
  | nil
  | cons (v : DBValue) (rest : DBValues)

/-- Keyed nested values (fields of a STRUCT, or entries of a MAP). -/
inductive DBFields where
  | nil
  | cons (k : String) (v : DBValue) (rest : DBFields)

end

mutual

/-- Embedding of format_value (context.py lines 105-150): empty output for
null, bracketed recursive layouts for Struct, List and Map, and the Python
str rendering for the scalar fallthrough. -/
def format_value : DBValue → String
  | .null => ""
  | .int n => toString n
  | .str s => s
  | .struct fields => "\x7b" ++ joinWith ", " (formatStructItems fields) ++ "\x7d"
  | .list elems => "[" ++ joinWith ", " (formatListItems elems) ++ "]"
  | .map pairs => "\x7b" ++ joinWith ", " (formatMapItems pairs) ++ "\x7d"

/-- Items of a formatted Struct value (key, colon, formatted field). -/
def formatStructItems : DBFields → List String
  | .nil => []
  | .cons k v rest => (k ++ ": " ++ format_value v) :: formatStructItems rest

/-- Items of a formatted List value. -/
def formatListItems : DBValues → List String
  | .nil => []
  | .cons v rest => format_value v :: formatListItems rest

/-- Items of a formatted Map value (key, arrow, formatted entry). -/
def formatMapItems : DBFields → List String
  | .nil => []
  | .cons k v rest => (k ++ "=>" ++ format_value v) :: formatMapItems rest

end

/-- Conditional of the middle segment (context.py line 158): the formatted
value when the cell is not None, the empty string otherwise. -/
def nullOrFormat : DBValue → String
  | .null => ""
  | v => format_value v

/-- Middle segment of a formatted row (the list comprehension in
format_db_row, context.py line 158): one part per non-anchor column, in
column order; indexing the row out of range raises, which the embedding
reports as none. -/
def contentParts (row : List DBValue) (pk_index : Nat) : List String → Nat → Option (List String)
  | [], _ => some []
  | col_name :: rest, i =>
    if i = pk_index then contentParts row pk_index rest (i + 1)
    else
      match row.get? i with
      | none => none
      | some v =>
        let part := strUpper col_name ++ ": " ++ nullOrFormat v
        (contentParts row pk_index rest (i + 1)).map (fun ps => part :: ps)

/-- Embedding of format_db_row (context.py lines 152-159).  The anchor
value falls back to the literal string N/A when the anchor index is out of
range; out-of-range access in the middle segment is an uncaught IndexError,
reported as none. -/
def format_db_row (row : List DBValue) (column_names : List String)
    (pk_name : String) (pk_index : Nat) : Option String :=
  match row, column_names with
  | [], _ => some ""
  | _, [] => some ""
  | _ :: _, _ :: _ =>
    let pk_value := format_value
      (match row.get? pk_index with
       | some v => v
       | none => .str "N/A")
    let start_part := strUpper pk_name ++ ": " ++ pk_value
    let end_part := "END " ++ strUpper pk_name ++ ": " ++ pk_value
    match contentParts row pk_index column_names 0 with
    | none => none
    | some parts => some (joinWith " | " (start_part :: parts ++ [end_part]))

/-! ## DatabaseSerializer (context.py lines 86-103 and 163-193)

A database file is modelled by the outcome of its connect-and-enumerate
step: either a duckdb error message, or the list of tables.  Each table
carries the outcome of its PRAGMA table_info call (used both for the
COLUMNS line and for the anchor column) and of its SELECT query.  Python
exception flow is explicit: the single try block of process_database_file
accumulates output lines until the first raised error; a duckdb.Error is
caught and appended as the ERROR line, any other exception (an IndexError
from format_db_row) propagates out of the function, which the embedding
reports as none.  The returned Bool records whether conn.close() ran. -/

/-- One row of PRAGMA table_info output: column name, declared type, and
the primary-key flag (fields 1, 2 and 5 of the cursor row). -/
structure ColumnInfo where
  name : String
  declaredType : String
  pk : Bool

/-- Kind of a raised Python exception: a caught duckdb.Error with its
message, or any other exception, which process_database_file does not
catch. -/
inductive PyErr where
  | duck (msg : String)
  | other

/-- A table as the cursor presents it: its name, the outcome of
PRAGMA table_info, and the outcome of SELECT *. -/
structure DBTableData where
  name : String
  columns : Except String (List ColumnInfo)
  rows : Except String (List (List DBValue))

/-- A database file, by the outcome of connect plus SHOW TABLES. -/
structure DBFile where
  tables : Except String (List DBTableData)

/-- Embedding of get_db_columns_info (context.py lines 90-95) applied to
fetched PRAGMA rows: the column-name list and the COLUMNS display text. -/
def get_db_columns_info (cols : List ColumnInfo) : List String × String :=
  (cols.map (fun c => c.name),
    joinWith ", " (cols.map (fun c => c.name ++ " (" ++ c.declaredType ++ ")")))

/-- Search loop of get_db_primary_key_info (context.py lines 97-103): the
first column whose pk flag is set, with its cid, else the ID default at
index zero. -/
def primaryKeyAux : List ColumnInfo → Nat → String × Nat
  | [], _ => ("ID", 0)
  | c :: rest, i => if c.pk then (c.name, i) else primaryKeyAux rest (i + 1)

/-- Embedding of get_db_primary_key_info applied to fetched PRAGMA rows. -/
def get_db_primary_key_info (cols : List ColumnInfo) : String × Nat :=
  primaryKeyAux cols 0

/-- Row-formatting loop of process_database_file (lines 185-186): ok with
all row lines, or error with the lines appended before the exception. -/
def formatRows (column_names : List String) (pk_name : String) (pk_index : Nat) :
    List (List DBValue) → Except (List String) (List String)
  | [] => .ok []
  | r :: rest =>
    match format_db_row r column_names pk_name pk_index with
    | none => .error []
    | some line =>
      match formatRows column_names pk_name pk_index rest with
      | .ok ls => .ok (line :: ls)
      | .error ls => .error (line :: ls)

/-- Per-table body of the loop in process_database_file (lines 176-187):
the lines this table appends to db_content, and the exception it raises,
if any.  An excluded table contributes nothing. -/
def tableLines (exclude_table_patterns : List String) (t : DBTableData) :
    List String × Option PyErr :=
  if is_excluded t.name exclude_table_patterns then ([], none)
  else
    let l0 := ["[TABLE " ++ t.name ++ "]"]
    match t.columns with
    | .error m => (l0, some (.duck m))
    | .ok cols =>
      let column_names := (get_db_columns_info cols).1
      let columns_str := (get_db_columns_info cols).2
      let l1 := l0 ++ ["COLUMNS: " ++ columns_str]
      let pk := get_db_primary_key_info cols
      match t.rows with
      | .error m => (l1, some (.duck m))
      | .ok rows =>
        match formatRows column_names pk.1 pk.2 rows with
        | .error partLines => (l1 ++ partLines, some .other)
        | .ok rowLines => (l1 ++ rowLines ++ ["[END TABLE " ++ t.name ++ "]"], none)

/-- Table loop of process_database_file: accumulates lines table by table
and stops at the first raised exception. -/
def runTables (exclude_table_patterns : List String) :
    List DBTableData → List String × Option PyErr
  | [] => ([], none)
  | t :: ts =>
    match tableLines exclude_table_patterns t with
    | (ls, some e) => (ls, some e)
    | (ls, none) =>
      let tail := runTables exclude_table_patterns ts
      (ls ++ tail.1, tail.2)

/-- The ERROR line appended by the except branch (context.py line 190). -/
def dbErrorLine (msg : String) : String :=
  "ERROR: Не удалось прочитать базу данных. Ошибка: " ++ msg

/-- The INFO line appended when the database has no tables (line 174). -/
def dbInfoLine : String :=
  "INFO: В базе данных таблицы не найдены."

/-- Embedding of process_database_file (context.py lines 163-193): the
serialized block, and whether conn.close() executed; none when a
non-duckdb exception escapes the function. -/
def process_database_file (db : DBFile) (relative_path : String)
    (exclude_table_patterns : List String) : Option (String × Bool) :=
  let header := "[DATABASE " ++ relative_path ++ "]"
  let footer := "[END DATABASE " ++ relative_path ++ "]\n"
  match db.tables with
  | .error m => some (joinWith "\n" [header, dbErrorLine m, footer], false)
  | .ok ts =>
    let infoL : List String := if ts.isEmpty then [dbInfoLine] else []
    match runTables exclude_table_patterns ts with
    | (ls, none) => some (joinWith "\n" (header :: (infoL ++ ls ++ [footer])), true)
    | (ls, some (.duck m)) =>
      some (joinWith "\n" (header :: (infoL ++ ls ++ [dbErrorLine m, footer])), false)
    | (_, some .other) => none

/-! ## TokenEstimator (context.py lines 16-39)

The tokenizer is module state in the source; the embedding passes it
explicitly as an optional counting function from the batch text to its
token count.  Batches are consecutive batch_size-character slices.  The
slicing loop is fueled by the text length, which suffices whenever
batch_size is positive (a zero batch_size raises in Python and is outside
every claim). -/

/-- Fueled batch slicing, modelling the list comprehension on line 28. -/
def chunksAux (batch_size : Nat) : Nat → List Char → List (List Char)
  | _, [] => []
  | 0, _ => []
  | fuel + 1, text => text.take batch_size :: chunksAux batch_size fuel (text.drop batch_size)

/-- Consecutive batch_size-character slices of the text. -/
def chunks (batch_size : Nat) (text : List Char) : List (List Char) :=
  chunksAux batch_size text.length text

/-- Embedding of estimate_gemini_tokens (context.py lines 16-39): zero for
empty text; with a tokenizer, the running sum of per-batch token counts
(skipping empty batches, as the source does); without one, the
length-over-four fallback. -/
def estimate_gemini_tokens (tok : Option (List Char → Nat)) (text : List Char)
    (batch_size : Nat) : Nat :=
  if text = [] then 0
  else
    match tok with
    | some enc =>
      (chunks batch_size text).foldl
        (fun total batch => if batch = [] then total else total + enc batch) 0
    | none => text.length / 4

/-! ## Filesystem model, FileTreeBuilder and ContentCollector
(context.py lines 63-82 and 195-237)

A directory is a list of entries; a file carries its content, which is
either raw bytes or (for files that duckdb can open) a database model.
Directory listings are looked up by name, as the source does after
os.listdir / os.walk hand it name strings.  The walk of
collect_and_separate_contents prunes excluded directories before
descending, processes the files of each directory in sorted order, and
recurses into the kept subdirectories in listing order; its dictionary of
text blocks is an insertion-ordered association list.  A none result
models a non-duckdb exception escaping the walk (only possible through
format_db_row). -/

/-- Content of one file in the modelled filesystem. -/
inductive FileData where
  | textBytes (bs : List Nat)
  | database (d : DBFile)

/-- One directory entry: a file with content, or a subdirectory. -/
inductive FSEntry where
  | file (nm : String) (data : FileData)
  | dir (nm : String) (entries : List FSEntry)

/-- Name of a directory entry. -/
def FSEntry.entryName : FSEntry → String
  | .file nm _ => nm
  | .dir nm _ => nm

/-- Lookup of a directory entry by name, modelling the filesystem calls
(os.path.isdir, open) the source makes on a name it got from a listing. -/
def findEntry (entries : List FSEntry) (n : String) : Option FSEntry :=
  entries.find? (fun e => e.entryName == n)

/-- Content of the file a lookup found, if it found a file. -/
def dataOf : Option FSEntry → Option FileData
  | some (.file _ d) => some d
  | _ => none

/-- Embedding of is_binary (context.py lines 41-49) applied to the looked
up content: a zero byte in the first 1024 bytes.  A missing file or a
directory raises IOError in the source, which is_binary turns into true;
a real DuckDB database file starts with a header block that contains zero
bytes, so database content is binary as well. -/
def is_binary : Option FileData → Bool
  | some (.textBytes bs) => (bs.take 1024).contains 0
  | some (.database _) => true
  | none => true

/-- Bytes the source reads from a text file; unreachable for non-file
lookups because is_binary has already filtered them out. -/
def readBytes : Option FileData → List Nat
  | some (.textBytes bs) => bs
  | _ => []

/-- Database model that duckdb.connect sees for the given content:
non-database content makes connect raise, which the model records as a
failed connect step. -/
def dbModelOf : Option FileData → DBFile
  | some (.database d) => d
  | _ => { tables := .error "file is not a valid DuckDB database file" }

/-- Filtered and sorted listing of generate_file_tree (context.py
line 69): entry names surviving exclusion, in Python sorted order. -/
def sortedFilteredNames (fs : List FSEntry) (start_path : String)
    (pats : List String) : List String :=
  pySorted ((fs.map FSEntry.entryName).filter
    (fun n => !is_excluded (pathJoin start_path n) pats))

/-- Entry sizes shrink along findEntry, which justifies the recursion of
the tree builder and of the walk. -/
theorem sizeOf_entries_lt_of_findEntry {fs : List FSEntry} {n nm : String}
    {es : List FSEntry} (h : findEntry fs n = some (.dir nm es)) :
    sizeOf es < sizeOf fs := by
  have hmem := List.mem_of_find?_eq_some h
  have hlt := List.sizeOf_lt_of_mem hmem
  have : sizeOf es < sizeOf (FSEntry.dir nm es) := by
    simp only [FSEntry.dir.sizeOf_spec]
    omega
  omega

/-- Loop body of generate_file_tree (context.py lines 73-80) over the
names still to render: one connector-prefixed line per name, and a
recursive block under each name that is a directory. -/
def genTreeRows : List FSEntry → String → List String → String → List String → List String
  | _, _, _, _, [] => []
  | fs, start_path, pats, pfx, n :: rest =>
    let connector := if rest = [] then "└── " else "├── "
    let line := pfx ++ connector ++ n
    let subLines :=
      match h : findEntry fs n with
      | some (.dir _ es) =>
        genTreeRows es (pathJoin start_path n) pats
          (pfx ++ (if rest = [] then "    " else "│   "))
          (sortedFilteredNames es (pathJoin start_path n) pats)
      | _ => []
    line :: (subLines ++ genTreeRows fs start_path pats pfx rest)
termination_by fs _ _ _ ns => (sizeOf fs, ns.length)
decreasing_by
  · exact Prod.Lex.left _ _ (sizeOf_entries_lt_of_findEntry h)
  · exact Prod.Lex.right _ (by simp [List.length_cons])

/-- Embedding of generate_file_tree (context.py lines 63-82) on a modelled
directory: the non-existent-path branch of the source corresponds to the
caller passing the listing of an existing directory here. -/
def generate_file_tree (fs : List FSEntry) (start_path : String)
    (pats : List String) (pfx : String) : List String :=
  genTreeRows fs start_path pats pfx (sortedFilteredNames fs start_path pats)

/-- Append a block under a bucket of the insertion-ordered dictionary of
text contents (context.py lines 233-235). -/
def addBlock : List (String × List String) → String → String → List (String × List String)
  | [], ty, block => [(ty, [block])]
  | (t, bs) :: rest, ty, block =>
    if t = ty then (t, bs ++ [block]) :: rest else (t, bs) :: addBlock rest ty block

/-- Per-file body of the walk loop (context.py lines 207-235): skip
excluded files, route database suffixes to the database serializer, skip
binary files, otherwise append a ContentBlock to the extension bucket. -/
def processName (fs : List FSEntry) (fullPath relDir : String)
    (pats tpats : List String) (acc : List (String × List String) × List String)
    (filename : String) : Option (List (String × List String) × List String) :=
  let file_path := pathJoin fullPath filename
  if is_excluded file_path pats then some acc
  else
    let relative_path := joinRel relDir filename
    if strEndsWith filename ".db" || strEndsWith filename ".duckdb" then
      match process_database_file (dbModelOf (dataOf (findEntry fs filename)))
          relative_path tpats with
      | none => none
      | some r => some (acc.1, acc.2 ++ [r.1])
    else if is_binary (dataOf (findEntry fs filename)) then some acc
    else
      let block := content_block relative_path (readBytes (dataOf (findEntry fs filename)))
      some (addBlock acc.1 (file_type_of filename) block, acc.2)

/-- Walk loop over the sorted file names of one directory. -/
def processNames (fs : List FSEntry) (fullPath relDir : String)
    (pats tpats : List String) :
    List String → List (String × List String) × List String →
    Option (List (String × List String) × List String)
  | [], acc => some acc
  | n :: rest, acc =>
    match processName fs fullPath relDir pats tpats acc n with
    | none => none
    | some acc2 => processNames fs fullPath relDir pats tpats rest acc2

/-- Names of the plain files of a directory, in Python sorted order (the
files list of os.walk, line 206). -/
def fileNamesOf (fs : List FSEntry) : List String :=
  pySorted (fs.filterMap (fun e =>
    match e with
    | .file nm _ => some nm
    | .dir _ _ => none))

mutual

/-- Embedding of the walk of collect_and_separate_contents (context.py
lines 203-235) from one directory downwards: first this directory's
files, then the kept subdirectories depth-first in listing order. -/
def walkCollect (fs : List FSEntry) (fullPath relDir : String)
    (pats tpats : List String) (acc : List (String × List String) × List String) :
    Option (List (String × List String) × List String) :=
  match processNames fs fullPath relDir pats tpats (fileNamesOf fs) acc with
  | none => none
  | some acc1 => walkSubdirs fs fullPath relDir pats tpats acc1
termination_by (sizeOf fs, 1)

/-- Descent into the subdirectories surviving the prune of line 204, in
listing order. -/
def walkSubdirs (l : List FSEntry) (fullPath relDir : String)
    (pats tpats : List String) (acc : List (String × List String) × List String) :
    Option (List (String × List String) × List String) :=
  match l with
  | [] => some acc
  | .file _ _ :: rest => walkSubdirs rest fullPath relDir pats tpats acc
  | .dir nm es :: rest =>
    if is_excluded (pathJoin fullPath nm) pats then
      walkSubdirs rest fullPath relDir pats tpats acc
    else
      match walkCollect es (pathJoin fullPath nm) (joinRel relDir nm) pats tpats acc with
      | none => none
      | some acc2 => walkSubdirs rest fullPath relDir pats tpats acc2
termination_by (sizeOf l, 0)

end

/-- Embedding of collect_and_separate_contents (context.py lines 195-237):
text blocks bucketed by extension, and database blocks, walking from the
root listing with empty accumulators. -/
def collect_and_separate_contents (fs : List FSEntry) (start_path : String)
    (pats tpats : List String) :
    Option (List (String × List String) × List String) :=
  walkCollect fs start_path "" pats tpats ([], [])

/-- Replace the contents of every excluded directory of the tree by the
empty listing (and recurse below the kept ones).  Exclusion of an entry
depends only on its name and path, which this transformation preserves. -/
def scrubEntries (path : String) (pats : List String) : List FSEntry → List FSEntry
  | [] => []
  | .file nm d :: rest => .file nm d :: scrubEntries path pats rest
  | .dir nm es :: rest =>
    (if is_excluded (pathJoin path nm) pats then FSEntry.dir nm []
     else FSEntry.dir nm (scrubEntries (pathJoin path nm) pats es)) ::
      scrubEntries path pats rest

/-- One-entry version of scrubEntries. -/
def scrubOne (path : String) (pats : List String) : FSEntry → FSEntry
  | .file nm d => .file nm d
  | .dir nm es =>
    if is_excluded (pathJoin path nm) pats then FSEntry.dir nm []
    else FSEntry.dir nm (scrubEntries (pathJoin path nm) pats es)

/-! ## Helper lemmas for the claims -/

/-- Joining the slices of the fueled slicer recovers the text. -/
theorem chunksAux_join (batch_size : Nat) (hB : 0 < batch_size) :
    ∀ fuel text, List.length text ≤ fuel →
      (chunksAux batch_size fuel text).flatten = text := by
  intro fuel
  induction fuel with
  | zero =>
    intro text ht
    have h0 : text = [] := List.eq_nil_of_length_eq_zero (Nat.le_zero.mp ht)
    subst h0
    rfl
  | succ f ih =>
    intro text ht
    cases text with
    | nil => rfl
    | cons c cs =>
      simp only [chunksAux, List.flatten_cons]
      rw [ih (List.drop batch_size (c :: cs))
        (by simp only [List.length_drop, List.length_cons] at ht ⊢; omega)]
      exact List.take_append_drop _ _

/-- On nonempty text with positive batch size, every slice is nonempty. -/
theorem chunksAux_ne_nil (batch_size : Nat) (hB : 0 < batch_size) :
    ∀ fuel text b, b ∈ chunksAux batch_size fuel text → b ≠ [] := by
  intro fuel
  induction fuel with
  | zero =>
    intro text b hb
    cases text with
    | nil => simp [chunksAux] at hb
    | cons c cs => simp [chunksAux] at hb
  | succ f ih =>
    intro text b hb
    cases text with
    | nil => simp [chunksAux] at hb
    | cons c cs =>
      simp only [chunksAux, List.mem_cons] at hb
      cases hb with
      | inl h =>
        subst h
        cases batch_size with
        | zero => omega
        | succ m => simp [List.take]
      | inr h => exact ih _ _ h

/-- The running-total loop of the estimator over nonempty batches is the
sum of the per-batch counts. -/
theorem foldl_skip_empty (enc : List Char → Nat) :
    ∀ (l : List (List Char)), (∀ b ∈ l, b ≠ []) → ∀ init : Nat,
      l.foldl (fun total batch => if batch = [] then total else total + enc batch) init =
        init + (l.map enc).sum := by
  intro l
  induction l with
  | nil => intro _ init; simp
  | cons a rest ih =>
    intro h init
    have ha : a ≠ [] := h a (List.mem_cons_self _ _)
    simp only [List.foldl, List.map, List.sum_cons, if_neg ha]
    rw [ih (fun b hb => h b (List.mem_cons_of_mem _ hb)) (init + enc a)]
    omega

/-- Claim C7: for a table with columns ID and NAME, anchor ID at index 0,
and the row (1, Alice), format_db_row yields exactly the string
ID: 1 | NAME: Alice | END ID: 1, with column names upper-cased and the
anchor column excluded from the middle segment. -/
theorem c7_format_row_concrete :
    format_db_row [.int 1, .str "Alice"] ["ID", "NAME"] "ID" 0 =
      some "ID: 1 | NAME: Alice | END ID: 1" := by
  decide

/-- Claim C8: the estimate of empty text is 0 with or without a tokenizer
(and independently of it), and with no tokenizer the estimate is exactly
the integer quotient of the text length by four, for every text. -/
theorem c8_estimate_empty_and_fallback :
    (∀ (tok : Option (List Char → Nat)) (batch_size : Nat),
      estimate_gemini_tokens tok [] batch_size = 0) ∧
    (∀ (text : List Char) (batch_size : Nat),
      estimate_gemini_tokens none text batch_size = text.length / 4) := by
  constructor
  · intro tok batch_size
    simp [estimate_gemini_tokens]
  · intro text batch_size
    by_cases h : text = []
    · subst h; simp [estimate_gemini_tokens]
    · simp [estimate_gemini_tokens, h]

/-- Claim C9: with a tokenizer and nonempty text, the estimate with batch
size B is the sum over the consecutive B-character slices (which
concatenate back to the text) of the per-slice token counts. -/
theorem c9_batched_tokenization (enc : List Char → Nat) (batch_size : Nat)
    (text : List Char) (hB : 0 < batch_size) (ht : text ≠ []) :
    (chunks batch_size text).flatten = text ∧
    estimate_gemini_tokens (some enc) text batch_size =
      ((chunks batch_size text).map enc).sum := by
  refine ⟨chunksAux_join batch_size hB _ _ (Nat.le_refl _), ?_⟩
  simp only [estimate_gemini_tokens, if_neg ht]
  rw [foldl_skip_empty enc (chunks batch_size text)
    (fun b hb => chunksAux_ne_nil batch_size hB text.length text b hb) 0]
  omega

/-- Witness for C9 at a concrete tokenizer (character count), batch size 2
and the text abcde. -/
theorem c9_batched_tokenization_witness :
    (chunks 2 "abcde".toList).flatten = "abcde".toList ∧
    estimate_gemini_tokens (some List.length) "abcde".toList 2 =
      ((chunks 2 "abcde".toList).map List.length).sum :=
  c9_batched_tokenization List.length 2 "abcde".toList (by decide) (by decide)

/-- The middle-segment loop cannot raise when every scanned index is in
range of the row. -/
theorem contentParts_total (row : List DBValue) (pk_index : Nat) :
    ∀ (cols : List String) (i : Nat), i + cols.length ≤ row.length →
      ∃ ps, contentParts row pk_index cols i = some ps := by
  intro cols
  induction cols with
  | nil => intro i _; exact ⟨[], rfl⟩
  | cons c rest ih =>
    intro i h
    have hlen : i + rest.length + 1 ≤ row.length := by
      simp only [List.length_cons] at h; omega
    by_cases hpk : i = pk_index
    · subst hpk
      obtain ⟨ps, hps⟩ := ih (i + 1) (by omega)
      exact ⟨ps, by simp [contentParts, hps]⟩
    · cases hv : row.get? i with
      | none =>
        exfalso
        have := List.get?_eq_none.mp hv
        omega
      | some v =>
        obtain ⟨ps, hps⟩ := ih (i + 1) (by omega)
        have hstep : contentParts row pk_index (c :: rest) i =
            (contentParts row pk_index rest (i + 1)).map
              (fun l => (strUpper c ++ ": " ++ nullOrFormat v) :: l) := by
          simp only [contentParts, if_neg hpk, hv]
        rw [hstep, hps]
        exact ⟨_, rfl⟩

/-- Claim C10: for a nonempty row and nonempty column list with at most as
many columns as row fields, an anchor index at or beyond the row length
does not make format_db_row fail: it produces a row string whose opening
and closing anchor segments render the anchor value as the literal N/A. -/
theorem c10_pk_out_of_range (row : List DBValue) (column_names : List String)
    (pk_name : String) (pk_index : Nat)
    (hrow : row ≠ []) (hcols : column_names ≠ [])
    (hlen : column_names.length ≤ row.length) (hpk : row.length ≤ pk_index) :
    ∃ parts, contentParts row pk_index column_names 0 = some parts ∧
      format_db_row row column_names pk_name pk_index =
        some (joinWith " | " ((strUpper pk_name ++ ": " ++ "N/A") :: parts ++
          ["END " ++ strUpper pk_name ++ ": " ++ "N/A"])) := by
  obtain ⟨parts, hparts⟩ := contentParts_total row pk_index column_names 0 (by omega)
  have hget : row.get? pk_index = none := List.get?_eq_none.mpr hpk
  refine ⟨parts, hparts, ?_⟩
  cases row with
  | nil => exact absurd rfl hrow
  | cons r rs =>
    cases column_names with
    | nil => exact absurd rfl hcols
    | cons cn cns =>
      simp only [format_db_row, hget, hparts]
      rfl

/-- Witness for C10: a one-column, one-field row with anchor index 3. -/
theorem c10_pk_out_of_range_witness :
    ∃ parts, contentParts [DBValue.int 7] 3 ["a"] 0 = some parts ∧
      format_db_row [DBValue.int 7] ["a"] "id" 3 =
        some (joinWith " | " ((strUpper "id" ++ ": " ++ "N/A") :: parts ++
          ["END " ++ strUpper "id" ++ ": " ++ "N/A"])) :=
  c10_pk_out_of_range [DBValue.int 7] ["a"] "id" 3 (by simp) (by simp)
    (by decide) (by decide)

/-- The pattern loop returns true exactly when some pattern matches the
path or the precomputed basename. -/
theorem isExcludedAux_iff (p b : String) (pats : List String) :
    isExcludedAux p b pats = true ↔
      ∃ pat ∈ pats, fnmatch p pat = true ∨ fnmatch b pat = true := by
  induction pats with
  | nil => simp [isExcludedAux]
  | cons pat rest ih =>
    by_cases h : (fnmatch p pat || fnmatch b pat) = true
    · simp only [isExcludedAux, if_pos h]
      constructor
      · intro _
        refine ⟨pat, List.mem_cons_self _ _, ?_⟩
        rcases (Bool.or_eq_true _ _).mp h with h1 | h1
        · exact Or.inl h1
        · exact Or.inr h1
      · intro _; trivial
    · have hp : fnmatch p pat = false := by
        rcases Bool.or_eq_false_iff.mp (Bool.eq_false_iff.mpr h) with ⟨h1, _⟩
        exact h1
      have hb : fnmatch b pat = false := by
        rcases Bool.or_eq_false_iff.mp (Bool.eq_false_iff.mpr h) with ⟨_, h2⟩
        exact h2
      simp only [isExcludedAux, if_neg h]
      rw [ih]
      constructor
      · rintro ⟨pa, hmem, hor⟩
        exact ⟨pa, List.mem_cons_of_mem _ hmem, hor⟩
      · rintro ⟨pa, hmem, hor⟩
        rcases List.mem_cons.mp hmem with rfl | hmem2
        · rcases hor with h1 | h1
          · rw [hp] at h1; exact absurd h1 (by simp)
          · rw [hb] at h1; exact absurd h1 (by simp)
        · exact ⟨pa, hmem2, hor⟩

/-- Claim C5: is_excluded is true iff some pattern glob-matches the full
path string or its final component, and for the empty pattern list it is
always false. -/
theorem c5_is_excluded_characterisation (p : String) (patterns : List String) :
    (is_excluded p patterns = true ↔
      ∃ pat ∈ patterns, fnmatch p pat = true ∨ fnmatch (basename p) pat = true) ∧
    is_excluded p [] = false :=
  ⟨isExcludedAux_iff p (basename p) patterns, rfl⟩

/-- Under a dot-free suffix, the last dot of the concatenation is the one
separating stem and suffix. -/
theorem rfindDot_eq_none (l : List Char) (h : '.' ∉ l) : rfindDot l = none := by
  induction l with
  | nil => rfl
  | cons c cs ih =>
    have hc : ¬(c = '.') := fun hh => h (hh ▸ List.mem_cons_self _ _)
    have hcs : '.' ∉ cs := fun hh => h (List.mem_cons_of_mem _ hh)
    simp [rfindDot, ih hcs, hc]

/-- The last dot of an appended list whose right part has a last dot. -/
theorem rfindDot_append_some (xs ys : List Char) (j : Nat)
    (h : rfindDot ys = some j) :
    rfindDot (xs ++ ys) = some (xs.length + j) := by
  induction xs with
  | nil =>
    simp only [List.nil_append, List.length_nil, Nat.zero_add]
    exact h
  | cons c cs ih =>
    simp only [List.cons_append, rfindDot, List.append_eq, ih, List.length_cons]
    congr 1
    omega

/-- splitext on a name of the shape stem.suffix, with a dot-free suffix
and a stem containing a non-dot character, splits at that dot. -/
theorem splitext_with_ext (stem suffix : List Char)
    (hstem : (stem.any fun c => c ≠ '.') = true) (hsuf : '.' ∉ suffix) :
    splitext (stem ++ '.' :: suffix) = (stem, '.' :: suffix) := by
  have h1 : rfindDot ('.' :: suffix) = some 0 := by
    simp [rfindDot, rfindDot_eq_none suffix hsuf]
  have h2 : rfindDot (stem ++ '.' :: suffix) = some stem.length := by
    simpa using rfindDot_append_some stem _ 0 h1
  have htake : (stem ++ '.' :: suffix).take stem.length = stem := List.take_left _ _
  have hdrop : (stem ++ '.' :: suffix).drop stem.length = '.' :: suffix := List.drop_left _ _
  rw [List.any_eq_true] at hstem
  simp [splitext, h2, htake, hdrop]
  simpa using hstem

/-- Claim C3 counterexample: the source does not lower-case the extension
bucket, so an upper-case suffix keeps its case, while the spec predicts
the lower-cased bucket. -/
theorem c3_counterexample :
    file_type_of "A.TXT" = "TXT" ∧ spec_file_type_lower "A.TXT" = "txt" ∧
      file_type_of "A.TXT" ≠ spec_file_type_lower "A.TXT" := by
  decide

/-- Claim C3 as amended: the bucket of an included non-database file is
the filename suffix after the last dot with its original case preserved
(not lower-cased), or the sentinel label when the name has no extension
(no dot at all, or a dot only in the leading hidden-file position). -/
theorem c3_amended_bucket (stem suffix f2 : List Char)
    (hstem : (stem.any fun c => c ≠ '.') = true) (hsuf : '.' ∉ suffix)
    (hf2 : '.' ∉ f2) :
    file_type_of (String.mk (stem ++ '.' :: suffix)) = String.mk suffix ∧
    file_type_of (String.mk f2) = "no_extension" ∧
    file_type_of (String.mk ('.' :: suffix)) = "no_extension" := by
  refine ⟨?_, ?_, ?_⟩
  · have hs : (String.mk (stem ++ '.' :: suffix)).toList = stem ++ '.' :: suffix := rfl
    simp [file_type_of, hs, splitext_with_ext stem suffix hstem hsuf]
  · have hs : (String.mk f2).toList = f2 := rfl
    simp [file_type_of, hs, splitext, rfindDot_eq_none f2 hf2]
  · have hs : (String.mk ('.' :: suffix)).toList = '.' :: suffix := rfl
    have h1 : rfindDot ('.' :: suffix) = some 0 := by
      simp [rfindDot, rfindDot_eq_none suffix hsuf]
    simp [file_type_of, hs, splitext, h1]

/-- Witness for the amended C3 at the names a.txt, noext and .txt. -/
theorem c3_amended_bucket_witness :
    file_type_of (String.mk (['a'] ++ '.' :: ['t', 'x', 't'])) = String.mk ['t', 'x', 't'] ∧
    file_type_of (String.mk "noext".toList) = "no_extension" ∧
    file_type_of (String.mk ('.' :: ['t', 'x', 't'])) = "no_extension" :=
  c3_amended_bucket ['a'] ['t', 'x', 't'] "noext".toList (by decide) (by decide) (by decide)

/-- Claim C2: a database whose connect-or-enumerate step fails serializes
to the opening tag, a single ERROR line in place of any table region, and
the closing tag, with the connection never closed. -/
theorem c2_failed_open_block (relative_path msg : String) (tpats : List String) :
    process_database_file ⟨Except.error msg⟩ relative_path tpats =
      some ("[DATABASE " ++ relative_path ++ "]" ++ "\n" ++
        ("ERROR: Не удалось прочитать базу данных. Ошибка: " ++ msg) ++ "\n" ++
        ("[END DATABASE " ++ relative_path ++ "]" ++ "\n"), false) := by
  simp only [process_database_file, joinWith, dbErrorLine, Option.some.injEq, Prod.mk.injEq]
  constructor
  · simp [String.append_assoc]
  · trivial

/-- Claim C1 counterexample: in a database where the first table's query
raises and a second table follows, the second table is not serialized (the
output equals that of the database without it) and the connection is not
closed, while the ERROR line lands once at the database level. -/
theorem c1_counterexample :
    process_database_file
      ⟨Except.ok [⟨"t1", Except.ok [⟨"a", "INTEGER", true⟩], Except.error "boom"⟩,
        ⟨"t2", Except.ok [⟨"b", "INTEGER", true⟩], Except.ok [[DBValue.int 5]]⟩]⟩
      "ex.db" [] =
    some ("[DATABASE ex.db]\n[TABLE t1]\nCOLUMNS: a (INTEGER)\nERROR: Не удалось прочитать базу данных. Ошибка: boom\n[END DATABASE ex.db]\n",
      false) ∧
    process_database_file
      ⟨Except.ok [⟨"t1", Except.ok [⟨"a", "INTEGER", true⟩], Except.error "boom"⟩,
        ⟨"t2", Except.ok [⟨"b", "INTEGER", true⟩], Except.ok [[DBValue.int 5]]⟩]⟩
      "ex.db" [] =
    process_database_file
      ⟨Except.ok [⟨"t1", Except.ok [⟨"a", "INTEGER", true⟩], Except.error "boom"⟩]⟩
      "ex.db" [] := by
  decide

/-- Table runs distribute over an error-free prefix. -/
theorem runTables_append_ok (tpats : List String) (ts1 ts2 : List DBTableData)
    (h : (runTables tpats ts1).2 = none) :
    runTables tpats (ts1 ++ ts2) =
      ((runTables tpats ts1).1 ++ (runTables tpats ts2).1, (runTables tpats ts2).2) := by
  induction ts1 with
  | nil => simp [runTables]
  | cons t rest ih =>
    cases htl : tableLines tpats t with
    | mk ls e =>
      cases e with
      | some err =>
        exfalso
        simp only [runTables, htl] at h
        exact Option.noConfusion h
      | none =>
        simp only [runTables, List.cons_append, List.append_eq, htl] at h ⊢
        rw [ih h]
        simp [List.append_assoc]

/-- A failing table ends the run with its own partial lines. -/
theorem runTables_cons_fail (tpats : List String) (t : DBTableData)
    (ts : List DBTableData) (e : PyErr) (h : (tableLines tpats t).2 = some e) :
    runTables tpats (t :: ts) = ((tableLines tpats t).1, some e) := by
  cases htl : tableLines tpats t with
  | mk ls e2 =>
    rw [htl] at h
    simp only at h
    subst h
    simp [runTables, htl]

/-- Claim C1 as amended: a duckdb error while introspecting or querying
one table is caught at the database level, not per table: it aborts the
processing of all subsequent tables (they contribute no lines), appends a
single ERROR line after the partial lines of the failing table together
with the closing tag, and skips conn.close(); the connection is closed
only on a run in which no table raised. -/
theorem c1_amended_abort_and_close (relative_path : String) (tpats : List String)
    (ts1 : List DBTableData) (t : DBTableData) (ts2 : List DBTableData) (m : String)
    (h1 : (runTables tpats ts1).2 = none)
    (h2 : (tableLines tpats t).2 = some (PyErr.duck m)) :
    (process_database_file ⟨Except.ok (ts1 ++ t :: ts2)⟩ relative_path tpats =
      some (joinWith "\n" (("[DATABASE " ++ relative_path ++ "]") ::
        ((runTables tpats ts1).1 ++ (tableLines tpats t).1 ++
          [dbErrorLine m, "[END DATABASE " ++ relative_path ++ "]\n"])), false)) ∧
    (∀ ts : List DBTableData, (runTables tpats ts).2 = none →
      (process_database_file ⟨Except.ok ts⟩ relative_path tpats).map Prod.snd =
        some true) := by
  constructor
  · have hstep : runTables tpats (t :: ts2) = ((tableLines tpats t).1, some (PyErr.duck m)) :=
      runTables_cons_fail tpats t ts2 _ h2
    have hall : runTables tpats (ts1 ++ t :: ts2) =
        ((runTables tpats ts1).1 ++ (tableLines tpats t).1, some (PyErr.duck m)) := by
      rw [runTables_append_ok tpats ts1 (t :: ts2) h1, hstep]
    have hne : (ts1 ++ t :: ts2).isEmpty = false := by
      cases ts1 <;> simp
    simp [process_database_file, hall, hne, List.append_assoc]
  · intro ts hts
    cases hrt : runTables tpats ts with
    | mk ls e =>
      rw [hrt] at hts
      simp only at hts
      subst hts
      simp [process_database_file, hrt]

/-- Witness for the amended C1: an empty prefix, a failing table t1 and a
healthy table t2 behind it. -/
theorem c1_amended_abort_and_close_witness :
    (process_database_file
      ⟨Except.ok ([] ++
        (⟨"t1", Except.ok [⟨"a", "INTEGER", true⟩], Except.error "boom"⟩ : DBTableData) ::
        [⟨"t2", Except.ok [⟨"b", "INTEGER", true⟩], Except.ok [[DBValue.int 5]]⟩])⟩
      "ex.db" [] =
      some (joinWith "\n" (("[DATABASE " ++ "ex.db" ++ "]") ::
        ((runTables [] []).1 ++
          (tableLines []
            (⟨"t1", Except.ok [⟨"a", "INTEGER", true⟩], Except.error "boom"⟩ : DBTableData)).1 ++
          [dbErrorLine "boom", "[END DATABASE " ++ "ex.db" ++ "]\n"])), false)) ∧
    (∀ ts : List DBTableData, (runTables [] ts).2 = none →
      (process_database_file ⟨Except.ok ts⟩ "ex.db" []).map Prod.snd = some true) :=
  c1_amended_abort_and_close "ex.db" [] []
    ⟨"t1", Except.ok [⟨"a", "INTEGER", true⟩], Except.error "boom"⟩
    [⟨"t2", Except.ok [⟨"b", "INTEGER", true⟩], Except.ok [[DBValue.int 5]]⟩]
    "boom" (by rfl) (by rfl)

/-- One decoder step consumes exactly the encoding of a character and
yields that character, whatever follows. -/
theorem utf8Step_encodeChar (mode : DecodeErrMode) (c : Char) (tail : List Nat) :
    ∃ b bs, encodeChar c = b :: bs ∧ utf8Step mode b (bs ++ tail) = ([c], tail) := by
  have hval : Nat.isValidChar c.toNat := c.valid
  have hofn : Char.ofNat c.toNat = c := Char.ofNat_toNat c
  simp only [Nat.isValidChar] at hval
  set n := c.toNat with hn
  by_cases h1 : n < 0x80
  · refine ⟨n, [], by simp [encodeChar, h1], ?_⟩
    simp [utf8Step, h1, hofn]
  · by_cases h2 : n < 0x800
    · refine ⟨0xC0 + n / 0x40, [0x80 + n % 0x40], by simp [encodeChar, h1, h2], ?_⟩
      have c1 : ¬(0xC0 + n / 0x40 < 0x80) := by omega
      have c2 : ¬(0xC0 + n / 0x40 < 0xC2) := by omega
      have c3 : 0xC0 + n / 0x40 < 0xE0 := by omega
      have c4 : isCont (0x80 + n % 0x40) = true := by
        simp only [isCont, Bool.and_eq_true, decide_eq_true_eq]
        omega
      have c5 : (0xC0 + n / 0x40 - 0xC0) * 0x40 + (0x80 + n % 0x40 - 0x80) = n := by omega
      simp [utf8Step, c1, c2, c3, c4, c5, hofn]
      have d5 : n / 0x40 * 0x40 + n % 0x40 = n := by omega
      rw [d5]
      exact hofn
    · by_cases h3 : n < 0x10000
      · refine ⟨0xE0 + n / 0x1000,
          [0x80 + (n / 0x40) % 0x40, 0x80 + n % 0x40], by simp [encodeChar, h1, h2, h3], ?_⟩
        have c1 : ¬(0xE0 + n / 0x1000 < 0x80) := by omega
        have c2 : ¬(0xE0 + n / 0x1000 < 0xC2) := by omega
        have c3 : ¬(0xE0 + n / 0x1000 < 0xE0) := by omega
        have c4 : 0xE0 + n / 0x1000 < 0xF0 := by omega
        have c6 : isCont (0x80 + n % 0x40) = true := by
          simp only [isCont, Bool.and_eq_true, decide_eq_true_eq]
          omega
        have c7 : (0xE0 + n / 0x1000 - 0xE0) * 0x1000 +
            (0x80 + (n / 0x40) % 0x40 - 0x80) * 0x40 + (0x80 + n % 0x40 - 0x80) = n := by
          omega
        have c5 : ((if (0xE0 + n / 0x1000 : Nat) = 0xE0 then (0xA0 : Nat) else 0x80) ≤
              0x80 + (n / 0x40) % 0x40 ∧
            0x80 + (n / 0x40) % 0x40 ≤
              (if (0xE0 + n / 0x1000 : Nat) = 0xED then (0x9F : Nat) else 0xBF)) := by
          constructor
          · split
            · omega
            · omega
          · split
            · omega
            · omega
        simp only [utf8Step, List.cons_append, List.nil_append, if_neg c1, if_neg c2,
          if_neg c3, if_pos c4]
        rw [if_pos (by simp only [Bool.and_eq_true, decide_eq_true_eq]; exact c5)]
        rw [if_pos c6]
        simp [c7, hofn]
        have d7 : n / 0x1000 * 0x1000 + n / 0x40 % 0x40 * 0x40 + n % 0x40 = n := by omega
        rw [d7]
        exact hofn
      · have h4 : n < 0x110000 := by omega
        refine ⟨0xF0 + n / 0x40000,
          [0x80 + (n / 0x1000) % 0x40, 0x80 + (n / 0x40) % 0x40, 0x80 + n % 0x40],
          by simp [encodeChar, h1, h2, h3], ?_⟩
        have c1 : ¬(0xF0 + n / 0x40000 < 0x80) := by omega
        have c2 : ¬(0xF0 + n / 0x40000 < 0xC2) := by omega
        have c3 : ¬(0xF0 + n / 0x40000 < 0xE0) := by omega
        have c4 : ¬(0xF0 + n / 0x40000 < 0xF0) := by omega
        have c4b : 0xF0 + n / 0x40000 < 0xF5 := by omega
        have c6 : isCont (0x80 + (n / 0x40) % 0x40) = true := by
          simp only [isCont, Bool.and_eq_true, decide_eq_true_eq]
          omega
        have c6b : isCont (0x80 + n % 0x40) = true := by
          simp only [isCont, Bool.and_eq_true, decide_eq_true_eq]
          omega
        have c7 : (0xF0 + n / 0x40000 - 0xF0) * 0x40000 +
            (0x80 + (n / 0x1000) % 0x40 - 0x80) * 0x1000 +
            (0x80 + (n / 0x40) % 0x40 - 0x80) * 0x40 + (0x80 + n % 0x40 - 0x80) = n := by
          omega
        have c5 : ((if (0xF0 + n / 0x40000 : Nat) = 0xF0 then (0x90 : Nat) else 0x80) ≤
              0x80 + (n / 0x1000) % 0x40 ∧
            0x80 + (n / 0x1000) % 0x40 ≤
              (if (0xF0 + n / 0x40000 : Nat) = 0xF4 then (0x8F : Nat) else 0xBF)) := by
          constructor
          · split
            · omega
            · omega
          · split
            · omega
            · omega
        simp only [utf8Step, List.cons_append, List.nil_append, if_neg c1, if_neg c2,
          if_neg c3, if_neg c4, if_pos c4b]
        rw [if_pos (by simp only [Bool.and_eq_true, decide_eq_true_eq]; exact c5)]
        rw [if_pos c6, if_pos c6b]
        simp [c7, hofn]
        have d7 : n / 0x40000 * 0x40000 + n / 0x1000 % 0x40 * 0x1000 +
            n / 0x40 % 0x40 * 0x40 + n % 0x40 = n := by omega
        rw [d7]
        exact hofn

/-- The encoding of a character is never empty. -/
theorem encodeChar_length_pos (c : Char) : 1 ≤ (encodeChar c).length := by
  simp only [encodeChar]
  split
  · simp
  · split
    · simp
    · split
      · simp
      · simp

/-- Decoding the encoding of a character list under enough fuel recovers
the characters, for either error handler. -/
theorem utf8DecodeAux_encode (mode : DecodeErrMode) :
    ∀ fuel s, (encodeUtf8 s).length ≤ fuel →
      utf8DecodeAux mode fuel (encodeUtf8 s) = s := by
  intro fuel
  induction fuel with
  | zero =>
    intro s hs
    cases s with
    | nil => rfl
    | cons c cs =>
      exfalso
      have h1 : 1 ≤ (encodeChar c).length := encodeChar_length_pos c
      have h2 : encodeUtf8 (c :: cs) = encodeChar c ++ encodeUtf8 cs := rfl
      rw [h2] at hs
      simp only [List.length_append] at hs
      omega
  | succ f ih =>
    intro s hs
    cases s with
    | nil => rfl
    | cons c cs =>
      obtain ⟨b, bs, henc, hstep⟩ := utf8Step_encodeChar mode c (encodeUtf8 cs)
      have hlist : encodeUtf8 (c :: cs) = b :: (bs ++ encodeUtf8 cs) := by
        show encodeChar c ++ encodeUtf8 cs = b :: (bs ++ encodeUtf8 cs)
        rw [henc]
        rfl
      rw [hlist]
      simp only [utf8DecodeAux, hstep]
      rw [ih cs ?_]
      · rfl
      · have hlen : (encodeUtf8 (c :: cs)).length ≤ f + 1 := hs
        rw [hlist] at hlen
        simp only [List.length_cons, List.length_append] at hlen
        omega

/-- Round trip of the modelled CPython UTF-8 codec on well-formed input. -/
theorem utf8Decode_encode (mode : DecodeErrMode) (s : List Char) :
    utf8Decode mode (encodeUtf8 s) = s :=
  utf8DecodeAux_encode mode _ s (Nat.le_refl _)

/-- Claim C4 counterexample: on a body with an invalid byte, the source
(errors=ignore) drops the byte, while the spec text (invalid bytes
replaced) predicts a replacement character; the two blocks differ. -/
theorem c4_counterexample :
    content_block "a.txt" [0xFF, 0x61] = "[a.txt]\na\n[END a.txt]\n" ∧
    spec_content_block_replace "a.txt" [0xFF, 0x61] = "[a.txt]\n�a\n[END a.txt]\n" ∧
    content_block "a.txt" [0xFF, 0x61] ≠ spec_content_block_replace "a.txt" [0xFF, 0x61] := by
  decide

/-- Claim C4 as amended: the ContentBlock of an included text file is the
opening tag, a newline, the body decoded permissively with invalid bytes
dropped (errors=ignore) rather than raising, a newline, and the closing
tag with its trailing blank line; on well-formed UTF-8 the decoded body is
the file text itself. -/
theorem c4_amended_block (relative_path : String) (bytes : List Nat) (s : List Char) :
    content_block relative_path bytes =
      "[" ++ relative_path ++ "]" ++ "\n" ++
        String.mk (utf8Decode .ignoreBytes bytes) ++ "\n" ++
        ("[END " ++ relative_path ++ "]\n") ∧
    utf8Decode .ignoreBytes (encodeUtf8 s) = s := by
  constructor
  · simp [content_block, joinWith, String.append_assoc]
  · exact utf8Decode_encode .ignoreBytes s

/-! ## Scrub lemmas: excluded directories contribute nothing -/

/-- Scrubbing processes a listing entrywise. -/
theorem scrubEntries_cons (path : String) (pats : List String) (e : FSEntry)
    (rest : List FSEntry) :
    scrubEntries path pats (e :: rest) =
      scrubOne path pats e :: scrubEntries path pats rest := by
  cases e with
  | file nm d => simp [scrubEntries, scrubOne]
  | dir nm es => simp [scrubEntries, scrubOne]

/-- Scrubbing distributes over list append. -/
theorem scrubEntries_append (path : String) (pats : List String)
    (l1 l2 : List FSEntry) :
    scrubEntries path pats (l1 ++ l2) =
      scrubEntries path pats l1 ++ scrubEntries path pats l2 := by
  induction l1 with
  | nil => simp [scrubEntries]
  | cons e rest ih =>
    rw [List.cons_append, scrubEntries_cons, scrubEntries_cons, ih, List.cons_append]

/-- Scrubbing preserves the name of an entry. -/
theorem entryName_scrubOne (path : String) (pats : List String) (e : FSEntry) :
    (scrubOne path pats e).entryName = e.entryName := by
  cases e with
  | file nm d => rfl
  | dir nm es =>
    simp only [scrubOne]
    split
    · rfl
    · rfl

/-- Scrubbing preserves the listed names. -/
theorem scrubEntries_map_entryName (path : String) (pats : List String)
    (fs : List FSEntry) :
    (scrubEntries path pats fs).map FSEntry.entryName = fs.map FSEntry.entryName := by
  induction fs with
  | nil => simp [scrubEntries]
  | cons e rest ih =>
    rw [scrubEntries_cons]
    simp [entryName_scrubOne, ih]

/-- Lookup in a scrubbed listing is the scrubbed lookup. -/
theorem findEntry_scrub (path : String) (pats : List String) (fs : List FSEntry)
    (n : String) :
    findEntry (scrubEntries path pats fs) n =
      (findEntry fs n).map (scrubOne path pats) := by
  induction fs with
  | nil => simp [scrubEntries, findEntry]
  | cons e rest ih =>
    rw [scrubEntries_cons]
    simp only [findEntry, List.find?]
    rw [entryName_scrubOne]
    cases h : (e.entryName == n) with
    | true => simp
    | false => simpa [findEntry] using ih

/-- Scrubbing does not change the filtered sorted listing of the tree
builder. -/
theorem sortedFilteredNames_scrub (path : String) (pats : List String)
    (fs : List FSEntry) :
    sortedFilteredNames (scrubEntries path pats fs) path pats =
      sortedFilteredNames fs path pats := by
  simp [sortedFilteredNames, scrubEntries_map_entryName]

/-- Scrubbing does not change the file-name listing of the walk. -/
theorem fileNamesOf_scrub (path : String) (pats : List String) (fs : List FSEntry) :
    fileNamesOf (scrubEntries path pats fs) = fileNamesOf fs := by
  have h : ∀ l : List FSEntry, (scrubEntries path pats l).filterMap (fun e =>
      match e with
      | .file nm _ => some nm
      | .dir _ _ => none) = l.filterMap (fun e =>
      match e with
      | .file nm _ => some nm
      | .dir _ _ => none) := by
    intro l
    induction l with
    | nil => simp [scrubEntries]
    | cons e rest ih =>
      rw [scrubEntries_cons]
      cases e with
      | file nm d => simp [scrubOne, List.filterMap, ih]
      | dir nm es =>
        simp only [scrubOne]
        split
        · simp [List.filterMap, ih]
        · simp [List.filterMap, ih]
  simp [fileNamesOf, h]

/-- Membership in the sorted insertion. -/
theorem mem_insertSorted (x y : String) (l : List String) :
    y ∈ insertSorted x l ↔ y = x ∨ y ∈ l := by
  induction l with
  | nil => simp [insertSorted]
  | cons a rest ih =>
    simp only [insertSorted]
    split
    · simp [List.mem_cons]
    · simp only [List.mem_cons, ih]
      tauto

/-- The model of Python sorted is a permutation up to membership. -/
theorem mem_pySorted (y : String) (l : List String) : y ∈ pySorted l ↔ y ∈ l := by
  induction l with
  | nil => simp [pySorted]
  | cons a rest ih => simp [pySorted, mem_insertSorted, ih]

/-- Every name the tree builder renders at a directory survived the
exclusion filter there. -/
theorem mem_sortedFilteredNames (fs : List FSEntry) (sp : String)
    (pats : List String) (n : String) (h : n ∈ sortedFilteredNames fs sp pats) :
    is_excluded (pathJoin sp n) pats = false := by
  simp only [sortedFilteredNames, mem_pySorted, List.mem_filter,
    Bool.not_eq_true'] at h
  exact h.2

/-- The per-file step of the walk only looks a name up as a file, so it is
unchanged by scrubbing the directories of the listing. -/
theorem processName_scrub (fs : List FSEntry) (fullPath relDir : String)
    (pats tpats : List String) (acc : List (String × List String) × List String)
    (n : String) :
    processName (scrubEntries fullPath pats fs) fullPath relDir pats tpats acc n =
      processName fs fullPath relDir pats tpats acc n := by
  simp only [processName, findEntry_scrub]
  cases h : findEntry fs n with
  | none => rfl
  | some e =>
    cases e with
    | file nm d => rfl
    | dir nm es =>
      simp only [Option.map_some', scrubOne]
      have hd : dataOf (some (if is_excluded (pathJoin fullPath nm) pats = true
          then FSEntry.dir nm []
          else FSEntry.dir nm (scrubEntries (pathJoin fullPath nm) pats es))) = none := by
        split
        · rfl
        · rfl
      rw [hd]
      rfl

/-- The file loop of one directory is unchanged by scrubbing. -/
theorem processNames_scrub (fs : List FSEntry) (fullPath relDir : String)
    (pats tpats : List String) :
    ∀ (ns : List String) (acc : List (String × List String) × List String),
      processNames (scrubEntries fullPath pats fs) fullPath relDir pats tpats ns acc =
        processNames fs fullPath relDir pats tpats ns acc := by
  intro ns
  induction ns with
  | nil => intro acc; rfl
  | cons n rest ih =>
    intro acc
    simp only [processNames, processName_scrub]
    cases processName fs fullPath relDir pats tpats acc n with
    | none => rfl
    | some acc2 => exact ih acc2

/-- The walk is unchanged when every excluded directory of the tree has
its contents replaced by the empty listing: the prune of line 204 never
descends into them. -/
theorem walk_scrub (k : Nat) :
    (∀ fs : List FSEntry, sizeOf fs ≤ k →
      ∀ (fullPath relDir : String) (pats tpats : List String)
        (acc : List (String × List String) × List String),
        walkCollect (scrubEntries fullPath pats fs) fullPath relDir pats tpats acc =
          walkCollect fs fullPath relDir pats tpats acc) ∧
    (∀ l : List FSEntry, sizeOf l ≤ k →
      ∀ (fullPath relDir : String) (pats tpats : List String)
        (acc : List (String × List String) × List String),
        walkSubdirs (scrubEntries fullPath pats l) fullPath relDir pats tpats acc =
          walkSubdirs l fullPath relDir pats tpats acc) := by
  induction k using Nat.strong_induction_on with
  | _ k ih =>
    have hsub : ∀ l : List FSEntry, sizeOf l ≤ k →
        ∀ (fullPath relDir : String) (pats tpats : List String)
          (acc : List (String × List String) × List String),
          walkSubdirs (scrubEntries fullPath pats l) fullPath relDir pats tpats acc =
            walkSubdirs l fullPath relDir pats tpats acc := by
      intro l hl fullPath relDir pats tpats acc
      cases l with
      | nil => simp [scrubEntries, walkSubdirs]
      | cons e rest =>
        have hrest : sizeOf rest < k := by
          simp only [List.cons.sizeOf_spec] at hl
          omega
        cases e with
        | file nm d =>
          rw [scrubEntries_cons]
          simp only [scrubOne, walkSubdirs]
          exact (ih (sizeOf rest) hrest).2 rest (Nat.le_refl _) fullPath relDir pats tpats acc
        | dir nm es =>
          have hes : sizeOf es < k := by
            simp only [List.cons.sizeOf_spec, FSEntry.dir.sizeOf_spec] at hl
            omega
          rw [scrubEntries_cons]
          by_cases hex : is_excluded (pathJoin fullPath nm) pats = true
          · simp only [scrubOne, if_pos hex, walkSubdirs, hex, if_true]
            exact (ih (sizeOf rest) hrest).2 rest (Nat.le_refl _) fullPath relDir pats tpats acc
          · have hexf : is_excluded (pathJoin fullPath nm) pats = false :=
              Bool.not_eq_true _ ▸ Bool.eq_false_iff.mpr hex
            simp only [scrubOne, hexf, Bool.false_eq_true, if_false, walkSubdirs]
            rw [(ih (sizeOf es) hes).1 es (Nat.le_refl _) (pathJoin fullPath nm)
              (joinRel relDir nm) pats tpats acc]
            cases walkCollect es (pathJoin fullPath nm) (joinRel relDir nm) pats tpats acc with
            | none => rfl
            | some acc2 =>
              exact (ih (sizeOf rest) hrest).2 rest (Nat.le_refl _) fullPath relDir pats tpats acc2
    refine ⟨?_, hsub⟩
    intro fs hfs fullPath relDir pats tpats acc
    simp only [walkCollect, fileNamesOf_scrub, processNames_scrub]
    cases processNames fs fullPath relDir pats tpats (fileNamesOf fs) acc with
    | none => rfl
    | some acc1 => exact hsub fs hfs fullPath relDir pats tpats acc1

theorem findEntry_scrub_of_dir (sp : String) (pats : List String) (fs : List FSEntry)
    (n nm : String) (es0 : List FSEntry)
    (h : findEntry fs n = some (FSEntry.dir nm es0)) :
    findEntry (scrubEntries sp pats fs) n =
      some (if is_excluded (pathJoin sp nm) pats = true then FSEntry.dir nm []
        else FSEntry.dir nm (scrubEntries (pathJoin sp nm) pats es0)) := by
  rw [findEntry_scrub, h, Option.map_some']
  rfl

theorem findEntry_scrub_dir (sp : String) (pats : List String) (fs : List FSEntry)
    (n nm : String) (es' : List FSEntry)
    (h : findEntry (scrubEntries sp pats fs) n = some (FSEntry.dir nm es')) :
    ∃ es0 : List FSEntry, findEntry fs n = some (FSEntry.dir nm es0) ∧
      ((is_excluded (pathJoin sp nm) pats = true ∧ es' = []) ∨
       (is_excluded (pathJoin sp nm) pats = false ∧
         es' = scrubEntries (pathJoin sp nm) pats es0)) := by
  rw [findEntry_scrub] at h
  cases hf : findEntry fs n with
  | none => rw [hf] at h; exact Option.noConfusion h
  | some e =>
    rw [hf, Option.map_some'] at h
    cases e with
    | file nm0 d =>
      exfalso
      simp [scrubOne] at h
    | dir nm0 es0 =>
      simp only [scrubOne] at h
      by_cases hex : is_excluded (pathJoin sp nm0) pats = true
      · rw [if_pos hex] at h
        simp only [Option.some.injEq, FSEntry.dir.injEq] at h
        obtain ⟨hnm, hes⟩ := h
        subst hnm
        exact ⟨es0, rfl, Or.inl ⟨hex, hes.symm⟩⟩
      · have hexf : is_excluded (pathJoin sp nm0) pats = false := by
          cases hq : is_excluded (pathJoin sp nm0) pats
          · rfl
          · exact absurd hq hex
        rw [if_neg hex] at h
        simp only [Option.some.injEq, FSEntry.dir.injEq] at h
        obtain ⟨hnm, hes⟩ := h
        subst hnm
        exact ⟨es0, rfl, Or.inr ⟨hexf, hes.symm⟩⟩


/-- The tree rows over names that survived exclusion are unchanged when
every excluded directory of the listing is scrubbed: the renderer never
descends into an excluded name. -/
theorem genTreeRows_scrub (k : Nat) :
    ∀ fs : List FSEntry, sizeOf fs ≤ k →
      ∀ (start_path : String) (pats : List String) (pfx : String) (ns : List String),
        (∀ n ∈ ns, is_excluded (pathJoin start_path n) pats = false) →
        genTreeRows (scrubEntries start_path pats fs) start_path pats pfx ns =
          genTreeRows fs start_path pats pfx ns := by
  induction k using Nat.strong_induction_on with
  | _ k ih =>
    intro fs hfs start_path pats pfx ns
    induction ns generalizing pfx with
    | nil => intro _; simp [genTreeRows]
    | cons n rest ihn =>
      intro hns
      have hn : is_excluded (pathJoin start_path n) pats = false :=
        hns n (List.mem_cons_self _ _)
      have hrest : ∀ m ∈ rest, is_excluded (pathJoin start_path m) pats = false :=
        fun m hm => hns m (List.mem_cons_of_mem _ hm)
      simp only [genTreeRows]
      rw [ihn pfx hrest]
      congr 1
      congr 1
      generalize (pfx ++ if rest = [] then "    " else "│   ") = pfx2
      split
      · next nm es2 heq =>
        obtain ⟨es0, hf0, hcase⟩ := findEntry_scrub_dir start_path pats fs n nm es2 heq
        have hname : nm = n := by
          have h2 := List.find?_some hf0
          simp only [FSEntry.entryName, beq_iff_eq] at h2
          exact h2
        subst hname
        rcases hcase with ⟨hex, _⟩ | ⟨hexf, hes⟩
        · rw [hex] at hn
          exact absurd hn (by simp)
        · subst hes
          rw [sortedFilteredNames_scrub]
          have hlt : sizeOf es0 < k :=
            Nat.lt_of_lt_of_le (sizeOf_entries_lt_of_findEntry hf0) hfs
          rw [ih (sizeOf es0) hlt es0 (Nat.le_refl _) (pathJoin start_path nm) pats _
            (sortedFilteredNames es0 (pathJoin start_path nm) pats)
            (fun m hm => mem_sortedFilteredNames es0 (pathJoin start_path nm) pats m hm)]
          split
          · next nm2 es3 heq2 =>
            rw [hf0] at heq2
            simp only [Option.some.injEq, FSEntry.dir.injEq] at heq2
            obtain ⟨hnm2, hes3⟩ := heq2
            subst hes3
            rfl
          · next hne2 =>
            exfalso
            exact hne2 nm es0 hf0
      · next hne =>
        split
        · next nm2 es3 heq2 =>
          exfalso
          have hsc := findEntry_scrub_of_dir start_path pats fs n nm2 es3 heq2
          by_cases hex : is_excluded (pathJoin start_path nm2) pats = true
          · rw [if_pos hex] at hsc
            exact hne nm2 [] hsc
          · rw [if_neg hex] at hsc
            exact hne nm2 _ hsc
        · rfl

/-- The rendered tree is unchanged when every excluded directory of the
listing is scrubbed. -/
theorem generate_file_tree_scrub (fs : List FSEntry) (start_path : String)
    (pats : List String) (pfx : String) :
    generate_file_tree (scrubEntries start_path pats fs) start_path pats pfx =
      generate_file_tree fs start_path pats pfx := by
  simp only [generate_file_tree, sortedFilteredNames_scrub]
  exact genTreeRows_scrub (sizeOf fs) fs (Nat.le_refl _) start_path pats pfx _
    (fun n hn => mem_sortedFilteredNames fs start_path pats n hn)

/-- The collected contents are unchanged when every excluded directory of
the listing is scrubbed. -/
theorem walkCollect_scrub (fs : List FSEntry) (fullPath relDir : String)
    (pats tpats : List String)
    (acc : List (String × List String) × List String) :
    walkCollect (scrubEntries fullPath pats fs) fullPath relDir pats tpats acc =
      walkCollect fs fullPath relDir pats tpats acc :=
  (walk_scrub (sizeOf fs)).1 fs (Nat.le_refl _) fullPath relDir pats tpats acc

/-- Claim C6: directory exclusion is transitive.  For a directory entry
matched by an exclusion pattern, the whole subtree below it is irrelevant:
replacing it by any other subtree (in particular the empty one) changes
neither the rendered file tree nor the collected text and database
contents, so no descendant of the excluded directory ever appears in
either, even descendants matching no pattern themselves. -/
theorem c6_excluded_dir_transitive (A B : List FSEntry) (nm : String)
    (es es2 : List FSEntry) (start_path pfx : String)
    (pats tpats : List String)
    (hex : is_excluded (pathJoin start_path nm) pats = true) :
    generate_file_tree (A ++ FSEntry.dir nm es :: B) start_path pats pfx =
      generate_file_tree (A ++ FSEntry.dir nm es2 :: B) start_path pats pfx ∧
    collect_and_separate_contents (A ++ FSEntry.dir nm es :: B) start_path pats tpats =
      collect_and_separate_contents (A ++ FSEntry.dir nm es2 :: B) start_path pats tpats := by
  have key : scrubEntries start_path pats (A ++ FSEntry.dir nm es :: B) =
      scrubEntries start_path pats (A ++ FSEntry.dir nm es2 :: B) := by
    rw [scrubEntries_append, scrubEntries_append, scrubEntries_cons, scrubEntries_cons]
    simp [scrubOne, hex]
  constructor
  · rw [← generate_file_tree_scrub (A ++ FSEntry.dir nm es :: B) start_path pats pfx,
      ← generate_file_tree_scrub (A ++ FSEntry.dir nm es2 :: B) start_path pats pfx, key]
  · simp only [collect_and_separate_contents]
    rw [← walkCollect_scrub (A ++ FSEntry.dir nm es :: B) start_path "" pats tpats ([], []),
      ← walkCollect_scrub (A ++ FSEntry.dir nm es2 :: B) start_path "" pats tpats ([], []),
      key]

/-- Witness for C6: the directory build is excluded by the pattern build;
its subtree (one text file) can be replaced by the empty subtree without
changing the tree rendering or the collected contents. -/
theorem c6_excluded_dir_transitive_witness :
    generate_file_tree ([] ++ FSEntry.dir "build"
        [FSEntry.file "x.txt" (FileData.textBytes [104])] ::
        [FSEntry.file "a.txt" (FileData.textBytes [104])]) "root" ["build"] "" =
      generate_file_tree ([] ++ FSEntry.dir "build" [] ::
        [FSEntry.file "a.txt" (FileData.textBytes [104])]) "root" ["build"] "" ∧
    collect_and_separate_contents ([] ++ FSEntry.dir "build"
        [FSEntry.file "x.txt" (FileData.textBytes [104])] ::
        [FSEntry.file "a.txt" (FileData.textBytes [104])]) "root" ["build"] [] =
      collect_and_separate_contents ([] ++ FSEntry.dir "build" [] ::
        [FSEntry.file "a.txt" (FileData.textBytes [104])]) "root" ["build"] [] :=
  c6_excluded_dir_transitive [] [FSEntry.file "a.txt" (FileData.textBytes [104])]
    "build" [FSEntry.file "x.txt" (FileData.textBytes [104])] [] "root" ""
    ["build"] [] (by decide)
